import Mathlib

/-!
Verification of the courses-backend parsing core.

This file gives a shallow embedding, in Lean, of the pure text-to-data
components of the repository:

* the units parser (`crates/models/src/units.rs`),
* the day-set and days parsers (`crates/models/src/days.rs`),
* the time-range constructors (`crates/models/src/course_data.rs`),
* the requisite expression engine (`crates/models/src/requisite.rs`),
* the first-pass line classifier
  (`crates/data-scraper/src/courses/first_pass.rs`),

and proves the testable properties stated in the specification against it.

Modelling conventions: Rust `&str` values are embedded as `List Char`
(the inputs of interest are ASCII, where Rust's byte indexing and char
indexing coincide); Rust `f32` values produced by the units parser are
embedded as exact rationals `ℚ`, and `str::parse::<f32>` is modelled as
exact decimal-literal parsing (the special float forms `inf`/`NaN` and
exponent notation, which never occur in units fields, are not modelled);
fallible Rust functions returning `Result`/`Option` are embedded as
`Except`/`Option`.
-/

namespace CoursesBackend

/-! ### List-of-char string utilities (models of Rust `str` methods) -/

/-- Model of Rust `str::trim` (drop leading and trailing whitespace). -/
def trimChars (cs : List Char) : List Char :=
  ((cs.dropWhile Char.isWhitespace).reverse.dropWhile Char.isWhitespace).reverse

/-- Accumulator loop for `splitOnChar`. -/
def splitOnCharGo (sep : Char) : List Char → List Char → List (List Char)
  | [], cur => [cur.reverse]
  | c :: rest, cur =>
    if c = sep then cur.reverse :: splitOnCharGo sep rest []
    else splitOnCharGo sep rest (c :: cur)

/-- Model of Rust `str::split(sep)` for a single-char separator:
empty segments are kept, and the empty string yields one empty segment. -/
def splitOnChar (sep : Char) (cs : List Char) : List (List Char) :=
  splitOnCharGo sep cs []

/-- Accumulator loop for `splitWhitespaceChars`. -/
def splitWsGo : List Char → List Char → List (List Char)
  | [], cur => if cur = [] then [] else [cur.reverse]
  | c :: rest, cur =>
    if c.isWhitespace then
      if cur = [] then splitWsGo rest [] else cur.reverse :: splitWsGo rest []
    else splitWsGo rest (c :: cur)

/-- Model of Rust `str::split_whitespace`: maximal non-whitespace runs,
never producing empty tokens. -/
def splitWhitespaceChars (cs : List Char) : List (List Char) :=
  splitWsGo cs []

/-- Model of Rust `str::starts_with(char)`. -/
def startsWithChar (c : Char) : List Char → Bool
  | [] => false
  | x :: _ => x = c

/-- Model of Rust `str::ends_with(char)`. -/
def endsWithChar (c : Char) (cs : List Char) : Bool :=
  startsWithChar c cs.reverse

/-- Does `pat` occur at the head of `cs`? (model of byte-slice equality). -/
def listStartsWith : List Char → List Char → Bool
  | [], _ => true
  | _ :: _, [] => false
  | p :: ps, c :: cs => p = c && listStartsWith ps cs

/-- Model of Rust `str::contains(&str)`: substring occurrence. -/
def containsSeq (pat : List Char) : List Char → Bool
  | [] => pat.isEmpty
  | c :: rest => listStartsWith pat (c :: rest) || containsSeq pat rest

/-- Numeric value of a digit string (base 10). -/
def digitsToNat (cs : List Char) : Nat :=
  cs.foldl (fun n c => 10 * n + (c.toNat - 48)) 0

/-- Unsigned part of the model of Rust `str::parse::<f32>`: a decimal
literal `digits`, `digits.digits`, `digits.` or `.digits` (at least one
digit overall), read as an exact rational. -/
def parseNumAux (cs : List Char) : Option ℚ :=
  let intPart := cs.takeWhile Char.isDigit
  let rest := cs.dropWhile Char.isDigit
  match rest with
  | [] => if intPart = [] then none else some (digitsToNat intPart : ℚ)
  | '.' :: frac =>
    if frac.all Char.isDigit ∧ (intPart ≠ [] ∨ frac ≠ []) then
      some ((digitsToNat intPart : ℚ) + (digitsToNat frac : ℚ) / (10 ^ frac.length : ℚ))
    else none
  | _ => none

/-- Model of Rust `str::parse::<f32>` on the decimal-literal fragment:
an optional sign followed by a decimal literal, valued as an exact
rational (see the module comment). -/
def parseF32 (cs : List Char) : Option ℚ :=
  match cs with
  | '-' :: rest => (parseNumAux rest).map Neg.neg
  | '+' :: rest => parseNumAux rest
  | _ => parseNumAux cs

/-! ### Units (`crates/models/src/units.rs`) -/

/-- `ParseUnitError` from `units.rs`. -/
inductive ParseUnitError where
  | emptyInput
  | noValidUnits
deriving DecidableEq, Repr

/-- `UnitTypeSimple` from `units.rs` (`f32` fields embedded as `ℚ`). -/
inductive UnitTypeSimple where
  | single (value : ℚ)
  | range (min max : ℚ)
deriving DecidableEq, Repr

/-- `UnitTypeSimple::min_value`. -/
def UnitTypeSimple.minValue : UnitTypeSimple → ℚ
  | .single v => v
  | .range mn _ => mn

/-- `UnitTypeSimple::max_value`. -/
def UnitTypeSimple.maxValue : UnitTypeSimple → ℚ
  | .single v => v
  | .range _ mx => mx

/-- `UnitType` from `units.rs`. -/
inductive UnitType where
  | single (value : ℚ)
  | range (min max : ℚ)
  | multi (units : List UnitTypeSimple)
deriving DecidableEq, Repr

/-- The `From<UnitTypeSimple> for UnitType` conversion. -/
def UnitTypeSimple.toUnitType : UnitTypeSimple → UnitType
  | .single v => .single v
  | .range mn mx => .range mn mx

/-- Three-way comparison on `ℚ` (model of `f32::partial_cmp`, which is
total on the rational embedding since `NaN` is not modelled). -/
def compareQ (a b : ℚ) : Ordering :=
  if a < b then .lt else if b < a then .gt else .eq

/-- `compare_units` from `units.rs`: order by minimum, then maximum. -/
def compareUnits (minA maxA minB maxB : ℚ) : Ordering :=
  match compareQ minA minB with
  | .eq => compareQ maxA maxB
  | o => o

/-- The comparator relation used by the `sort_by` call in
`UnitType::from_str` (`a.partial_cmp(b).unwrap_or(Equal)` is `≠ .gt`
read as "not greater"). -/
def unitLe (a b : UnitTypeSimple) : Prop :=
  compareUnits a.minValue a.maxValue b.minValue b.maxValue ≠ Ordering.gt

instance : DecidableRel unitLe := fun a b => by
  unfold unitLe; infer_instance

/-- The `(min, max)` lexicographic order on simple units, as the
specification states it. -/
def lexLe (a b : UnitTypeSimple) : Prop :=
  a.minValue < b.minValue ∨ (a.minValue = b.minValue ∧ a.maxValue ≤ b.maxValue)

/-- The whitespace-fallback loop body of `UnitType::from_str`: a
space-separated token is tried as a range when it contains `'-'`,
otherwise as a single number. -/
def spacePartUnits (t : List Char) : List UnitTypeSimple :=
  if t.contains '-' then
    match splitOnChar '-' t with
    | [a, b] =>
      match parseF32 a, parseF32 b with
      | some mn, some mx => [.range mn mx]
      | _, _ => []
    | _ => []
  else
    match parseF32 t with
    | some v => [.single v]
    | none => []

/-- The range attempt on a whole (trimmed) comma segment: when the
segment contains `'-'` and splits into exactly two parseable sides, it
is a range. -/
def partUnitsRange (p : List Char) : Option UnitTypeSimple :=
  if p.contains '-' then
    match splitOnChar '-' p with
    | [a, b] =>
      match parseF32 a, parseF32 b with
      | some mn, some mx => some (UnitTypeSimple.range mn mx)
      | _, _ => none
    | _ => none
  else none

/-- The rest of the comma-segment loop after the range attempt failed:
try the segment as a single number, else fall back to its
whitespace-separated tokens. -/
def partUnitsRest (p : List Char) : List UnitTypeSimple :=
  match parseF32 p with
  | some v => [.single v]
  | none => (splitWhitespaceChars p).foldr (fun t acc => spacePartUnits t ++ acc) []

/-- One iteration of the comma-segment loop of `UnitType::from_str`:
trim the segment, skip it when empty, try it as a range, then as a
single number, then fall back to its whitespace tokens. -/
def partUnits (p0 : List Char) : List UnitTypeSimple :=
  let p := trimChars p0
  if p = [] then []
  else
    match partUnitsRange p with
    | some u => [u]
    | none => partUnitsRest p

/-- The `simple_units` accumulation over all comma segments. -/
def collectUnits : List (List Char) → List UnitTypeSimple
  | [] => []
  | p :: ps => partUnits p ++ collectUnits ps

/-- The whole-string range branch of `UnitType::from_str`: applies only
when the string contains exactly the range shape (a `'-'`, no `','`,
and two parseable sides). -/
def topRange (s : List Char) : Option UnitType :=
  if s.contains '-' && !s.contains ',' then
    match splitOnChar '-' s with
    | [a, b] =>
      match parseF32 a, parseF32 b with
      | some mn, some mx => some (UnitType.range mn mx)
      | _, _ => none
    | _ => none
  else none

/-- `UnitType::from_str` from `units.rs`. -/
def UnitType.fromStr (s0 : List Char) : Except ParseUnitError UnitType :=
  let s := trimChars s0
  if s = [] then .error .emptyInput
  else
    match parseF32 s with
    | some v => .ok (.single v)
    | none =>
      match topRange s with
      | some r => .ok r
      | none =>
        match collectUnits (splitOnChar ',' s) with
        | [] => .error .noValidUnits
        | [u] => .ok u.toUnitType
        | u1 :: u2 :: us => .ok (.multi (List.insertionSort unitLe (u1 :: u2 :: us)))

/-- Specification-side predicate: does a token split into exactly two
sides of a `'-'` that both parse as numbers? -/
def validRangeB (t : List Char) : Bool :=
  match splitOnChar '-' t with
  | [a, b] => (parseF32 a).isSome && (parseF32 b).isSome
  | _ => false

/-- Specification-side predicate: is a whitespace-fallback token
recognizable — a valid range, or a hyphen-free number? -/
def spacePred (t : List Char) : Bool :=
  validRangeB t || (!(t.contains '-') && (parseF32 t).isSome)

/-- Specification-side predicate: does a comma segment carry a
recognizable unit token (as a whole range, a whole number, or through
one of its whitespace tokens)? -/
def partHasToken (p0 : List Char) : Bool :=
  let p := trimChars p0
  validRangeB p || (parseF32 p).isSome || (splitWhitespaceChars p).any spacePred

/-- Specification-side predicate: does the (trimmed) units string
contain any recognizable unit token? -/
def hasUnitToken (s : List Char) : Bool :=
  (splitOnChar ',' s).any partHasToken

/-- The claim's literal reading of "contains a token parseable as a
number or numeric range": split on commas, then on whitespace, and ask
whether any resulting token parses as a number or as a range. -/
def hasNumericToken (s : List Char) : Bool :=
  (splitOnChar ',' s).any fun p =>
    (splitWhitespaceChars (trimChars p)).any fun t =>
      (parseF32 t).isSome || validRangeB t

/-- `Units` from `units.rs`. -/
inductive Units where
  | var
  | value (t : UnitType)
deriving DecidableEq, Repr

/-- `Units::from_str` from `units.rs`. -/
def Units.fromStr (s0 : List Char) : Except ParseUnitError Units :=
  let s := trimChars s0
  if s = [] then .error .emptyInput
  else if s = "VAR".data then .ok .var
  else (UnitType.fromStr s).map .value

/-- `Result::is_ok`. -/
def isOkB {ε α : Type} : Except ε α → Bool
  | .ok _ => true
  | .error _ => false

instance {ε α : Type} [DecidableEq ε] [DecidableEq α] : DecidableEq (Except ε α) := fun x y =>
  match x, y with
  | .ok a, .ok b =>
    if h : a = b then .isTrue (by rw [h]) else .isFalse (fun hc => by cases hc; exact h rfl)
  | .error a, .error b =>
    if h : a = b then .isTrue (by rw [h]) else .isFalse (fun hc => by cases hc; exact h rfl)
  | .ok _, .error _ => .isFalse (fun hc => by cases hc)
  | .error _, .ok _ => .isFalse (fun hc => by cases hc)

/-! ### Day sets (`crates/models/src/days.rs`) -/

/-- The `DAY_CHARS` table: bit value and display letter of each day,
Monday through Sunday. A `DaySet` is embedded as the `Nat` value of the
underlying `u8` bit set (always `< 128`). -/
def dayChars : List (Nat × Char) :=
  [(1, 'M'), (2, 'T'), (4, 'W'), (8, 'R'), (16, 'F'), (32, 'S'), (64, 'U')]

/-- The inner table scan of `DaySet::from_str`: the bit contributed by
one input character (`0` when the character matches no day letter). -/
def charBit (c : Char) : Nat :=
  if c = 'M' then 1
  else if c = 'T' then 2
  else if c = 'W' then 4
  else if c = 'R' then 8
  else if c = 'F' then 16
  else if c = 'S' then 32
  else if c = 'U' then 64
  else 0

/-- The character loop of `DaySet::from_str`, OR-ing in each matched bit. -/
def daySetFromStrGo : Nat → List Char → Nat
  | acc, [] => acc
  | acc, c :: rest => daySetFromStrGo (acc ||| charBit c) rest

/-- `DaySet::from_str` from `days.rs` (infallible). -/
def daySetFromStr (cs : List Char) : Nat :=
  daySetFromStrGo 0 cs

/-- `DaySet::contains` from `days.rs`: `(self & day) == day`. -/
def daySetContains (s d : Nat) : Bool :=
  s &&& d = d

/-- The `Display` rendering of a `DaySet`: the letters of the contained
days in table order. -/
def daySetRender (s : Nat) : List Char :=
  (dayChars.filter (fun p => daySetContains s p.1)).map (fun p => p.2)

/-- `Days` from `days.rs`. -/
inductive Days where
  | days (s : Nat)
  | tba
deriving DecidableEq, Repr

/-- `Days::from_str` from `days.rs`: any input *containing* the
substring `"TBA"` is `TBA`; anything else is scanned into a `DaySet`. -/
def daysFromStr (cs : List Char) : Days :=
  if containsSeq "TBA".data cs then .tba
  else .days (daySetFromStr cs)

/-- The day letter at bit position `k` of the `DAY_CHARS` table. -/
def dayLetter (k : Nat) : Char :=
  (['M', 'T', 'W', 'R', 'F', 'S', 'U'].getD k ' ')

/-! ### Time ranges (`crates/models/src/course_data.rs`) -/

/-- Model of `chrono::NaiveTime::parse_from_str` with format
`"%I:%M%p"`: one or two hour digits in `1..=12`, a colon, one or two
minute digits in `0..=59`, then `AM`/`PM` case-insensitively, consuming
the whole input. The result is minutes since midnight. (`chrono` is an
external library; this models its documented behaviour on that format.) -/
def parseTime12 (cs : List Char) : Option Nat :=
  let hd := cs.takeWhile Char.isDigit
  let rest := cs.dropWhile Char.isDigit
  if hd = [] ∨ 2 < hd.length then none
  else
    let h := digitsToNat hd
    if h < 1 ∨ 12 < h then none
    else
      match rest with
      | ':' :: rest2 =>
        let md := rest2.takeWhile Char.isDigit
        let rest3 := rest2.dropWhile Char.isDigit
        if md = [] ∨ 2 < md.length then none
        else
          let m := digitsToNat md
          if 59 < m then none
          else
            match rest3 with
            | [a, p] =>
              if (a = 'A' ∨ a = 'a') ∧ (p = 'M' ∨ p = 'm') then
                some ((h % 12) * 60 + m)
              else if (a = 'P' ∨ a = 'p') ∧ (p = 'M' ∨ p = 'm') then
                some ((h % 12 + 12) * 60 + m)
              else none
            | _ => none
      | _ => none

/-- `TimeRange` from `course_data.rs` (`NaiveTime` embedded as minutes
since midnight). -/
structure TimeRange where
  begin_ : Nat
  end_ : Nat
deriving DecidableEq, Repr

/-- `TimeRange::new`: succeeds exactly when `begin` is before `end`. -/
def TimeRange.new (b e : Nat) : Option TimeRange :=
  if b < e then some ⟨b, e⟩ else none

/-- `TimeRange::from_strings`: parse both endpoints in the 12-hour
format, then construct. -/
def TimeRange.fromStrings (b e : List Char) : Option TimeRange :=
  match parseTime12 b with
  | none => none
  | some tb =>
    match parseTime12 e with
    | none => none
    | some te => TimeRange.new tb te

/-! ### Requisite expressions (`crates/models/src/requisite.rs`) -/

/-- `Expr` from `requisite.rs`. -/
inductive Expr where
  | course (number : List Char)
  | and (left right : Expr)
  | or (left right : Expr)
deriving DecidableEq, Repr

/-- `Expr::evaluate` from `requisite.rs`. -/
def Expr.evaluate : Expr → List (List Char) → Bool
  | .course c, completed => completed.contains c
  | .and l r, completed => l.evaluate completed && r.evaluate completed
  | .or l r, completed => l.evaluate completed || r.evaluate completed

/-- `Expr::simplify` from `requisite.rs`. -/
def Expr.simplify : Expr → List (List Char) → Option Expr
  | .course c, completed =>
    if completed.contains c then none else some (.course c)
  | .and l r, completed =>
    match l.simplify completed, r.simplify completed with
    | none, none => none
    | some l', none => some l'
    | none, some r' => some r'
    | some l', some r' => some (.and l' r')
  | .or l r, completed =>
    match l.simplify completed, r.simplify completed with
    | none, _ => none
    | _, none => none
    | some l', some r' => some (.or l' r')

/-- `ParseError` from `requisite.rs`, carrying the offending fragment. -/
structure ParseError where
  fragment : List Char
deriving DecidableEq, Repr

/-- The matching-parenthesis scan inside `Expr::from_str`: `true` when a
closing parenthesis balancing the opening one occurs before the final
character (so the expression is not one simple parenthesized group). -/
def foundClosingGo : Int → List Char → Bool
  | _, [] => false
  | count, c :: rest =>
    if c = '(' then foundClosingGo (count + 1) rest
    else if c = ')' then
      if count - 1 = 0 ∧ rest ≠ [] then true
      else foundClosingGo (count - 1) rest
    else foundClosingGo count rest

/-- Entry point of the matching-parenthesis scan. -/
def foundClosing (cs : List Char) : Bool :=
  foundClosingGo 0 cs

/-- The post-loop step of `split_top_level`: push the final trimmed
segment when non-empty. -/
def finishSplit (cs : List Char) (start : Nat) (acc : List (List Char)) : List (List Char) :=
  let last := trimChars (cs.drop start)
  if last = [] then acc else acc ++ [last]

/-- The scanning loop of `split_top_level`: walk the characters tracking
parenthesis depth; at depth 0, a space followed by the operator and
another space marks a split point. The `fuel` argument only bounds the
loop (each iteration advances `i`, so `cs.length + 1` never runs out). -/
def splitGo (cs op : List Char) : Nat → Nat → Nat → Int → List (List Char) → List (List Char)
  | 0, _, start, _, acc => finishSplit cs start acc
  | fuel + 1, i, start, paren, acc =>
    if i < cs.length then
      let c := cs.getD i ' '
      if c = '(' then splitGo cs op fuel (i + 1) start (paren + 1) acc
      else if c = ')' then splitGo cs op fuel (i + 1) start (paren - 1) acc
      else if c = ' ' ∧ paren = 0 ∧ i + op.length + 2 ≤ cs.length then
        if ((cs.drop (i + 1)).take op.length = op) ∧ cs.getD (i + op.length + 1) ' ' = ' ' then
          let part := trimChars ((cs.drop start).take (i - start))
          let acc' := if part = [] then acc else acc ++ [part]
          splitGo cs op fuel (i + op.length + 2) (i + op.length + 2) paren acc'
        else splitGo cs op fuel (i + 1) start paren acc
      else splitGo cs op fuel (i + 1) start paren acc
    else finishSplit cs start acc

/-- `split_top_level` from `requisite.rs`: `some` exactly when at least
two segments were produced. -/
def splitTopLevel (cs op : List Char) : Option (List (List Char)) :=
  let r := splitGo cs op (cs.length + 1) 0 0 0 []
  if 2 ≤ r.length then some r else none

/-- The left-fold over the tail of the split segments, combining with
`Or` or `And`. -/
def combineGo (f : List Char → Except ParseError Expr) (ctor : Expr → Expr → Expr) :
    Expr → List (List Char) → Except ParseError Expr
  | acc, [] => .ok acc
  | acc, p :: ps =>
    match f p with
    | .error e => .error e
    | .ok e => combineGo f ctor (ctor acc e) ps

/-- Parse every split segment and left-fold them into a chain. -/
def combineParts (f : List Char → Except ParseError Expr) (ctor : Expr → Expr → Expr) :
    List (List Char) → Except ParseError Expr
  | [] => .error ⟨[]⟩
  | p :: ps =>
    match f p with
    | .error e => .error e
    | .ok e => combineGo f ctor e ps

/-- `Expr::from_str` from `requisite.rs`, with a fuel argument bounding
the recursion depth (every recursive call is on a strictly shorter
fragment, so `length + 1` fuel always suffices; running out is a model
artifact reported as a parse error). -/
def fromStrAux : Nat → List Char → Except ParseError Expr
  | 0, s => .error ⟨s⟩
  | fuel + 1, s =>
    let input := trimChars s
    if startsWithChar '(' input && endsWithChar ')' input && !foundClosing input then
      fromStrAux fuel (trimChars ((input.drop 1).dropLast))
    else
      match splitTopLevel input ['o', 'r'] with
      | some parts => combineParts (fromStrAux fuel) Expr.or parts
      | none =>
        match splitTopLevel input ['a', 'n', 'd'] with
        | some parts => combineParts (fromStrAux fuel) Expr.and parts
        | none =>
          if startsWithChar '(' input && endsWithChar ')' input then
            fromStrAux fuel (trimChars ((input.drop 1).dropLast))
          else if input.all Char.isDigit then .ok (.course input)
          else .error ⟨input⟩

/-- `Expr::from_str` entry point. -/
def Expr.fromStr (s : List Char) : Except ParseError Expr :=
  fromStrAux (s.length + 1) s

/-! ### Line classifier (`crates/data-scraper/src/courses/first_pass.rs`) -/

/-- `is_course_number`: exactly five ASCII digits. -/
def is_course_number (s : List Char) : Bool :=
  s.length = 5 && s.all Char.isDigit

/-- `is_section_code`: first character is an uppercase ASCII letter. -/
def is_section_code (s : List Char) : Bool :=
  match s with
  | [] => false
  | c :: _ => c.isUpper

/-- The `Line` enum from `first_pass.rs`. -/
inductive Line where
  | empty
  | department (name : List Char)
  | courseHeader (number title : List Char)
  | secondaryCourseHeader (number title units : List Char)
  | primaryCourseComponent (units sec days timeStart timeEnd buildingRoom location instructors : List Char)
  | secondaryCourseComponent (sec days timeStart timeEnd buildingRoom location instructors : List Char)
  | additionalMeeting (days timeStart timeEnd buildingRoom location : List Char)
  | componentTitle (title : List Char)
  | unknown (raw : List Char)
deriving DecidableEq, Repr

/-- The ordered `match` over the tab-separated fields in `parse_line`;
the first matching rule wins, and a failed guard falls through to the
lower-precedence rules exactly as Rust slice-pattern matching does. -/
def classifyFields (line : List Char) (fields : List (List Char)) (leadingTabs : Nat) : Line :=
  match fields with
  | [only] =>
    if leadingTabs = 1 then .department only
    else if leadingTabs = 2 then .componentTitle only
    else .unknown line
  | [number, title] =>
    if is_course_number number then .courseHeader number (trimChars title)
    else .unknown line
  | f0 :: f1 :: f2 :: rest =>
    if is_course_number f0 && isOkB (Units.fromStr f2) then
      .secondaryCourseHeader f0 (trimChars f1) f2
    else
      match rest with
      | f3 :: f4 :: f5 :: f6 :: f7 :: _ =>
        if isOkB (Units.fromStr f0) then
          .primaryCourseComponent f0 f1 f2 f3 f4 f5 f6 f7
        else if is_section_code f0 then
          .secondaryCourseComponent f0 f1 f2 f3 f4 f5 f6
        else .additionalMeeting f0 f1 f2 f3 f4
      | [f3, f4, f5, f6] =>
        if is_section_code f0 then .secondaryCourseComponent f0 f1 f2 f3 f4 f5 f6
        else .additionalMeeting f0 f1 f2 f3 f4
      | [f3, f4, _] => .additionalMeeting f0 f1 f2 f3 f4
      | [f3, f4] => .additionalMeeting f0 f1 f2 f3 f4
      | [_] => .unknown line
      | [] => .unknown line
  | [] => .unknown line

/-- `parse_line` from `first_pass.rs`. -/
def parseLine (line : List Char) : Line :=
  let trimmed := trimChars line
  if trimmed = [] then .empty
  else
    classifyFields line (splitOnChar '\t' trimmed)
      ((line.takeWhile (fun c => c = '\t')).length)

/-! ### Claim theorems -/

/-- C2: parsing `"15122 and 21122 or 15213"` yields
`Or(And(Course 15122, Course 21122), Course 15213)` — `or` splits at the
top level before `and`, so `or` has the lowest precedence — and that
tree evaluates to `true` for the completed set `{15213}` and to `false`
for `{15122}` alone. -/
theorem requisite_precedence_15122 :
    Expr.fromStr "15122 and 21122 or 15213".data =
      .ok (.or (.and (.course "15122".data) (.course "21122".data)) (.course "15213".data))
  ∧ Expr.evaluate
      (.or (.and (.course "15122".data) (.course "21122".data)) (.course "15213".data))
      ["15213".data] = true
  ∧ Expr.evaluate
      (.or (.and (.course "15122".data) (.course "21122".data)) (.course "15213".data))
      ["15122".data] = false := by
  refine ⟨by decide, by decide, by decide⟩

/-- C7: for every subset of the 7-day set (all 128 bit patterns),
parsing the rendered day string returns the same set. -/
theorem dayset_roundtrip : ∀ s : Fin 128, daySetFromStr (daySetRender s.val) = s.val := by
  decide

/-- Witness for C7 at the subset `{Mon, Wed, Fri}` (bits `21`). -/
theorem dayset_roundtrip_witness :
    daySetFromStr (daySetRender (21 : Fin 128).val) = (21 : Fin 128).val :=
  dayset_roundtrip 21

/-- C10 counterexample: the claim that operator keywords parse
case-insensitively is false — `"15122 AND 21122"` and `"15122 Or 21122"`
do not parse to the tree the lower-case forms produce; they fail
entirely. -/
theorem requisite_case_counterexample :
    Expr.fromStr "15122 and 21122".data =
      .ok (.and (.course "15122".data) (.course "21122".data))
  ∧ Expr.fromStr "15122 AND 21122".data = .error ⟨"15122 AND 21122".data⟩
  ∧ Expr.fromStr "15122 AND 21122".data ≠ Expr.fromStr "15122 and 21122".data := by
  refine ⟨by decide, by decide, by decide⟩

/-- C10 amended: operator keywords are case-sensitive, recognized only
in lower case — joining sub-expressions with `" and "`/`" or "` parses
to the `And`/`Or` tree, while a keyword in any other letter case is not
treated as an operator and the input fails to parse. -/
theorem requisite_case_sensitive :
    Expr.fromStr "15122 and 21122".data =
      .ok (.and (.course "15122".data) (.course "21122".data))
  ∧ Expr.fromStr "15122 or 21122".data =
      .ok (.or (.course "15122".data) (.course "21122".data))
  ∧ Expr.fromStr "15122 AND 21122".data = .error ⟨"15122 AND 21122".data⟩
  ∧ Expr.fromStr "15122 Or 21122".data = .error ⟨"15122 Or 21122".data⟩ := by
  refine ⟨by decide, by decide, by decide, by decide⟩

/-- C9 counterexample: `Days` parsing does not map only the exact
literal `"TBA"` to `ToBeAnnounced` — the input `"MTBA"` also maps to
`TBA`, instead of the day set `{Mon, Tue}` (bits `3`) the claim
predicts for it. -/
theorem days_tba_counterexample :
    daysFromStr "MTBA".data = Days.tba ∧ Days.tba ≠ Days.days 3 := by
  refine ⟨by decide, by decide⟩

/-- Key relation between the requisite simplifier and evaluator: the
residual disappears exactly when the expression is satisfied. -/
theorem simplify_eq_none_iff (e : Expr) (c : List (List Char)) :
    e.simplify c = none ↔ e.evaluate c = true := by
  induction e with
  | course n =>
    by_cases h : c.contains n = true <;> simp [Expr.simplify, Expr.evaluate, h]
  | and l r ihl ihr =>
    simp only [Expr.simplify, Expr.evaluate]
    cases hl : l.simplify c <;> cases hr : r.simplify c <;>
      simp_all [Bool.and_eq_true]
  | or l r ihl ihr =>
    simp only [Expr.simplify, Expr.evaluate]
    cases hl : l.simplify c <;> cases hr : r.simplify c <;>
      simp_all [Bool.or_eq_true]

/-- C4: `simplify` and `evaluate` agree — the simplifier returns no
residual exactly when the evaluator reports the expression satisfied. -/
theorem simplify_evaluate_agree (e : Expr) (c : List (List Char)) :
    e.simplify c = none ↔ e.evaluate c = true :=
  simplify_eq_none_iff e c

/-- Witness for C4 at a concrete expression and completed set. -/
theorem simplify_evaluate_agree_witness :
    Expr.simplify (.and (.course "15122".data) (.course "21122".data))
      ["15122".data, "21122".data] = none
  ↔ Expr.evaluate (.and (.course "15122".data) (.course "21122".data))
      ["15122".data, "21122".data] = true :=
  simplify_evaluate_agree _ _

/-- C3: a fully satisfied requisite expression simplifies to no
residual, and simplifying against the empty completed set returns a
residual structurally equal to the original expression. -/
theorem simplify_satisfied_and_empty :
    (∀ (e : Expr) (c : List (List Char)), e.evaluate c = true → e.simplify c = none)
  ∧ (∀ e : Expr, e.simplify [] = some e) := by
  constructor
  · intro e c h
    exact (simplify_eq_none_iff e c).mpr h
  · intro e
    induction e with
    | course n => simp [Expr.simplify]
    | and l r ihl ihr => simp [Expr.simplify, ihl, ihr]
    | or l r ihl ihr => simp [Expr.simplify, ihl, ihr]

/-- Witness for C3 at concrete inputs. -/
theorem simplify_satisfied_and_empty_witness :
    Expr.evaluate (.or (.course "15122".data) (.course "15213".data)) ["15213".data] = true
  ∧ Expr.simplify (.or (.course "15122".data) (.course "15213".data)) ["15213".data] = none
  ∧ Expr.simplify (.and (.course "15122".data) (.course "21122".data)) [] =
      some (.and (.course "15122".data) (.course "21122".data)) :=
  ⟨by decide, simplify_satisfied_and_empty.1 _ _ (by decide),
    simplify_satisfied_and_empty.2 _⟩

/-- C1: classifier precedence — a line whose trimmed tab-split has three
or more fields, a valid 5-digit course number first and a valid units
token third classifies as `SecondaryCourseHeader` (never
`CourseHeader`), while exactly two fields with a valid course number
first classify as `CourseHeader`. -/
theorem classifier_precedence :
    (∀ (line f0 f1 f2 : List Char) (rest : List (List Char)),
        splitOnChar '\t' (trimChars line) = f0 :: f1 :: f2 :: rest →
        is_course_number f0 = true →
        isOkB (Units.fromStr f2) = true →
        parseLine line = Line.secondaryCourseHeader f0 (trimChars f1) f2)
  ∧ (∀ line f0 f1 : List Char,
        splitOnChar '\t' (trimChars line) = [f0, f1] →
        is_course_number f0 = true →
        parseLine line = Line.courseHeader f0 (trimChars f1)) := by
  constructor
  · intro line f0 f1 f2 rest h hc hu
    have hne : ¬ trimChars line = [] := by
      intro h0
      rw [h0] at h
      simp [splitOnChar, splitOnCharGo] at h
    unfold parseLine
    rw [if_neg hne, h]
    simp [classifyFields, hc, hu]
  · intro line f0 f1 h hc
    have hne : ¬ trimChars line = [] := by
      intro h0
      rw [h0] at h
      simp [splitOnChar, splitOnCharGo] at h
    unfold parseLine
    rw [if_neg hne, h]
    simp [classifyFields, hc]

/-- Witness for C1: the spec's example line classifies as
`SecondaryCourseHeader`, and its two-field prefix as `CourseHeader`. -/
theorem classifier_precedence_witness :
    parseLine "15122\tIntro to CS\t9".data =
      Line.secondaryCourseHeader "15122".data "Intro to CS".data "9".data
  ∧ parseLine "15122\tIntro to CS".data =
      Line.courseHeader "15122".data "Intro to CS".data :=
  ⟨classifier_precedence.1 _ "15122".data "Intro to CS".data "9".data []
      (by decide) (by decide) (by decide),
    classifier_precedence.2 _ "15122".data "Intro to CS".data (by decide) (by decide)⟩

/-- C8: `TimeRange::new` succeeds exactly when `begin` is strictly
before `end`, and `TimeRange::from_strings` succeeds exactly when both
tokens parse in the 12-hour `HH:MM AM/PM` format and the parsed begin
is strictly before the parsed end. -/
theorem timerange_construction :
    (∀ b e : Nat, (TimeRange.new b e).isSome = true ↔ b < e)
  ∧ (∀ s1 s2 : List Char,
      (TimeRange.fromStrings s1 s2).isSome = true ↔
        ∃ t1 t2, parseTime12 s1 = some t1 ∧ parseTime12 s2 = some t2 ∧ t1 < t2) := by
  constructor
  · intro b e
    unfold TimeRange.new
    split <;> simp_all
  · intro s1 s2
    unfold TimeRange.fromStrings
    cases h1 : parseTime12 s1 <;> cases h2 : parseTime12 s2 <;>
      simp_all [TimeRange.new] <;> split <;> simp_all

/-- Witness for C8 at concrete times and time strings. -/
theorem timerange_construction_witness :
    ((TimeRange.new 570 650).isSome = true ↔ 570 < 650)
  ∧ ((TimeRange.fromStrings "09:30AM".data "10:50AM".data).isSome = true ↔
      ∃ t1 t2, parseTime12 "09:30AM".data = some t1
        ∧ parseTime12 "10:50AM".data = some t2 ∧ t1 < t2) :=
  ⟨timerange_construction.1 570 650, timerange_construction.2 _ _⟩

/-- Trichotomy reformulations of `compareQ`. -/
theorem compareQ_gt_iff (a b : ℚ) : compareQ a b = .gt ↔ b < a := by
  unfold compareQ
  split_ifs with h1 h2 <;> simp_all <;> linarith

theorem compareQ_lt_iff (a b : ℚ) : compareQ a b = .lt ↔ a < b := by
  unfold compareQ
  split_ifs with h1 h2 <;> simp_all <;> linarith

theorem compareQ_eq_iff (a b : ℚ) : compareQ a b = .eq ↔ a = b := by
  unfold compareQ
  split_ifs with h1 h2 <;> simp_all <;> linarith

/-- The sort comparator of `UnitType::from_str` is the `(min, max)`
lexicographic order. -/
theorem unitLe_iff_lexLe (a b : UnitTypeSimple) : unitLe a b ↔ lexLe a b := by
  unfold unitLe lexLe compareUnits
  cases h : compareQ a.minValue b.minValue with
  | lt =>
    rw [compareQ_lt_iff] at h
    simp only [ne_eq]
    constructor
    · intro _; exact Or.inl h
    · intro _; simp
  | eq =>
    rw [compareQ_eq_iff] at h
    constructor
    · intro hne
      refine Or.inr ⟨h, ?_⟩
      by_contra hlt
      exact hne ((compareQ_gt_iff _ _).mpr (by linarith))
    · rintro (hlt | ⟨_, hle⟩)
      · exact absurd hlt (by simp [h])
      · intro hgt
        rw [compareQ_gt_iff] at hgt
        linarith
  | gt =>
    rw [compareQ_gt_iff] at h
    simp only [ne_eq, not_true_eq_false, false_iff]
    rintro (hlt | ⟨heq, hle⟩)
    · linarith
    · linarith

instance : IsTotal UnitTypeSimple unitLe := by
  constructor
  intro a b
  rw [unitLe_iff_lexLe, unitLe_iff_lexLe]
  unfold lexLe
  rcases lt_trichotomy a.minValue b.minValue with h | h | h
  · exact Or.inl (Or.inl h)
  · rcases le_total a.maxValue b.maxValue with hm | hm
    · exact Or.inl (Or.inr ⟨h, hm⟩)
    · exact Or.inr (Or.inr ⟨h.symm, hm⟩)
  · exact Or.inr (Or.inl h)

instance : IsTrans UnitTypeSimple unitLe := by
  constructor
  intro a b c hab hbc
  rw [unitLe_iff_lexLe] at hab hbc ⊢
  unfold lexLe at hab hbc ⊢
  rcases hab with h1 | ⟨h1, h1'⟩ <;> rcases hbc with h2 | ⟨h2, h2'⟩
  · exact Or.inl (h1.trans h2)
  · exact Or.inl (h2 ▸ h1)
  · exact Or.inl (h1 ▸ h2)
  · exact Or.inr ⟨h1.trans h2, h1'.trans h2'⟩

/-- The one-element collapse of `UnitType::from_str` never yields a
`Multi`. -/
theorem toUnitType_ne_multi (u : UnitTypeSimple) (l : List UnitTypeSimple) :
    u.toUnitType ≠ UnitType.multi l := by
  cases u <;> simp [UnitTypeSimple.toUnitType]

/-- The whole-string range branch only ever produces a `Range`. -/
theorem topRange_shape {s : List Char} {r : UnitType} (h : topRange s = some r) :
    ∃ mn mx, r = UnitType.range mn mx := by
  unfold topRange at h
  split at h
  · split at h
    · split at h
      · exact ⟨_, _, by cases h; rfl⟩
      · cases h
    · cases h
  · cases h

/-- C5: the `Multi` invariant — every `Multi` produced by
`UnitType::from_str` has at least two elements, and its elements are
sorted by the `(min, max)` lexicographic comparison. -/
theorem multi_invariant (s : List Char) (l : List UnitTypeSimple)
    (h : UnitType.fromStr s = .ok (.multi l)) :
    2 ≤ l.length ∧ List.Sorted lexLe l := by
  simp only [UnitType.fromStr] at h
  split at h
  · exact absurd h (by simp)
  · split at h
    · exact absurd h (by simp)
    · split at h
      · rename_i r hr
        obtain ⟨mn, mx, rfl⟩ := topRange_shape hr
        exact absurd h (by simp)
      · split at h
        · exact absurd h (by simp)
        · rename_i u
          rw [Except.ok.injEq] at h
          exact absurd h (toUnitType_ne_multi _ _)
        · rename_i u1 u2 us
          rw [Except.ok.injEq, UnitType.multi.injEq] at h
          subst h
          constructor
          · rw [List.length_insertionSort]
            simp
          · exact (List.sorted_insertionSort unitLe _).imp
              (fun hab => (unitLe_iff_lexLe _ _).mp hab)

/-- Witness for C5 at the spec's example `"3-12,18"`. -/
theorem multi_invariant_witness :
    UnitType.fromStr "3-12,18".data =
      .ok (.multi [.range 3 12, .single 18])
  ∧ 2 ≤ ([UnitTypeSimple.range 3 12, UnitTypeSimple.single 18] : List UnitTypeSimple).length
  ∧ List.Sorted lexLe [UnitTypeSimple.range 3 12, UnitTypeSimple.single 18] :=
  ⟨by decide, (multi_invariant "3-12,18".data _ (by decide)).1,
    (multi_invariant "3-12,18".data _ (by decide)).2⟩

/-- The bit contributed by one character tests positive at position `k`
exactly when the character is the day letter of position `k`. -/
theorem charBit_testBit (c : Char) (k : Nat) (hk : k < 7) :
    (charBit c).testBit k = (c == dayLetter k) := by
  interval_cases k <;>
    (unfold charBit dayLetter
     split_ifs with h1 h2 h3 h4 h5 h6 h7 <;> simp_all <;> decide)

/-- Bit-level description of the `DaySet::from_str` character loop. -/
theorem daySetFromStrGo_testBit (k : Nat) (cs : List Char) :
    ∀ acc : Nat,
      (daySetFromStrGo acc cs).testBit k
        = (acc.testBit k || cs.any fun c => (charBit c).testBit k) := by
  induction cs with
  | nil => intro acc; simp [daySetFromStrGo]
  | cons c rest ih =>
    intro acc
    simp [daySetFromStrGo, ih, Nat.testBit_lor, Bool.or_assoc]

/-- C9 amended: any input *containing* the substring `"TBA"` parses to
`ToBeAnnounced` (not only the exact literal); every other input parses
to `Days(DaySet)`; and the parsed day set contains precisely the days
whose letter from the `M T W R F S U` table occurs in the input, other
characters being ignored. -/
theorem days_tba_amended (cs : List Char) :
    (containsSeq "TBA".data cs = true → daysFromStr cs = Days.tba)
  ∧ (containsSeq "TBA".data cs = false → daysFromStr cs = Days.days (daySetFromStr cs))
  ∧ (∀ k : Nat, k < 7 → ((daySetFromStr cs).testBit k = true ↔ dayLetter k ∈ cs)) := by
  refine ⟨fun h => by simp [daysFromStr, h], fun h => by simp [daysFromStr, h], ?_⟩
  intro k hk
  unfold daySetFromStr
  rw [daySetFromStrGo_testBit]
  simp only [Nat.zero_testBit, Bool.false_or, List.any_eq_true]
  constructor
  · rintro ⟨c, hc, hbit⟩
    rw [charBit_testBit c k hk] at hbit
    exact (beq_iff_eq.mp hbit) ▸ hc
  · intro hmem
    exact ⟨dayLetter k, hmem, by rw [charBit_testBit _ k hk]; simp⟩

/-- Witness for C9's amended theorem at concrete inputs: `"XTBA"`
contains `"TBA"` and parses to `TBA`; `"MWF"` parses to its day set,
which contains Monday (bit 0). -/
theorem days_tba_amended_witness :
    daysFromStr "XTBA".data = Days.tba
  ∧ daysFromStr "MWF".data = Days.days (daySetFromStr "MWF".data)
  ∧ ((daySetFromStr "MWF".data).testBit 0 = true ↔ dayLetter 0 ∈ "MWF".data) :=
  ⟨(days_tba_amended _).1 (by decide), (days_tba_amended _).2.1 (by decide),
    (days_tba_amended _).2.2 0 (by decide)⟩

/-! ### Support lemmas for the units error characterization (C6) -/

theorem dropWhile_idem (p : Char → Bool) (l : List Char) :
    List.dropWhile p (List.dropWhile p l) = List.dropWhile p l := by
  induction l with
  | nil => rfl
  | cons a l ih =>
    by_cases h : p a = true <;> simp [List.dropWhile_cons, h, ih]

theorem head_dropWhile_false (p : Char → Bool) (l : List Char) (c : Char)
    (h : (List.dropWhile p l).head? = some c) : p c = false := by
  induction l with
  | nil => simp at h
  | cons a l ih =>
    rw [List.dropWhile_cons] at h
    split at h
    · exact ih h
    · rename_i hp
      simp only [List.head?_cons, Option.some.injEq] at h
      subst h
      simpa using hp

theorem dropWhile_eq_self_of_head (p : Char → Bool) (l : List Char)
    (h : ∀ c, l.head? = some c → p c = false) : List.dropWhile p l = l := by
  cases l with
  | nil => rfl
  | cons a l =>
    rw [List.dropWhile_cons, h a rfl]
    simp

theorem trimChars_idem (cs : List Char) : trimChars (trimChars cs) = trimChars cs := by
  unfold trimChars
  generalize hA : List.dropWhile Char.isWhitespace cs = A
  have h1 : List.dropWhile Char.isWhitespace
      (List.dropWhile Char.isWhitespace A.reverse).reverse
      = (List.dropWhile Char.isWhitespace A.reverse).reverse := by
    apply dropWhile_eq_self_of_head
    intro c hc
    have hsplit : A.reverse
        = List.takeWhile Char.isWhitespace A.reverse
          ++ List.dropWhile Char.isWhitespace A.reverse :=
      (List.takeWhile_append_dropWhile _ _).symm
    have hA2 : A = (List.dropWhile Char.isWhitespace A.reverse).reverse
        ++ (List.takeWhile Char.isWhitespace A.reverse).reverse := by
      calc A = A.reverse.reverse := (List.reverse_reverse A).symm
        _ = (List.takeWhile Char.isWhitespace A.reverse
              ++ List.dropWhile Char.isWhitespace A.reverse).reverse := by rw [← hsplit]
        _ = (List.dropWhile Char.isWhitespace A.reverse).reverse
              ++ (List.takeWhile Char.isWhitespace A.reverse).reverse := by
            rw [List.reverse_append]
    have hhead : A.head? = some c := by
      rw [hA2, List.head?_append, hc]
      rfl
    exact head_dropWhile_false _ cs c (by rw [hA]; exact hhead)
  rw [h1, List.reverse_reverse, dropWhile_idem]

theorem ws_not_digit {c : Char} (h : c.isWhitespace = true) : c.isDigit = false := by
  have hcases : ((c = ' ' ∨ c = '\t') ∨ c = '\r') ∨ c = '\n' := by
    simpa [Char.isWhitespace] using h
  rcases hcases with ((h | h) | h) | h <;> subst h <;> decide

theorem parseNumAux_chars {cs : List Char} {v : ℚ} (h : parseNumAux cs = some v) :
    ∀ c ∈ cs, c.isDigit = true ∨ c = '.' := by
  intro c hc
  simp only [parseNumAux] at h
  rw [← List.takeWhile_append_dropWhile Char.isDigit cs, List.mem_append] at hc
  rcases hc with hc | hc
  · exact Or.inl (List.mem_takeWhile_imp hc)
  · split at h
    · rename_i hrest
      rw [hrest] at hc
      simp at hc
    · rename_i frac hrest
      rw [hrest] at hc
      rcases List.mem_cons.mp hc with hc | hc
      · exact Or.inr hc
      · split at h
        · rename_i hcond
          exact Or.inl (by
            have := hcond.1
            rw [List.all_eq_true] at this
            exact this c hc)
        · cases h
    · cases h

theorem parseF32_chars {cs : List Char} {v : ℚ} (h : parseF32 cs = some v) :
    ∀ c ∈ cs, c.isDigit = true ∨ c = '.' ∨ c = '-' ∨ c = '+' := by
  intro c hc
  unfold parseF32 at h
  split at h
  · rename_i rest
    rcases List.mem_cons.mp hc with hc | hc
    · exact Or.inr (Or.inr (Or.inl hc))
    · rcases Option.map_eq_some'.mp h with ⟨v', hv', _⟩
      rcases parseNumAux_chars hv' c hc with hd | hd
      · exact Or.inl hd
      · exact Or.inr (Or.inl hd)
  · rename_i rest
    rcases List.mem_cons.mp hc with hc | hc
    · exact Or.inr (Or.inr (Or.inr hc))
    · rcases parseNumAux_chars h c hc with hd | hd
      · exact Or.inl hd
      · exact Or.inr (Or.inl hd)
  · rcases parseNumAux_chars h c hc with hd | hd
    · exact Or.inl hd
    · exact Or.inr (Or.inl hd)

theorem parseF32_no_ws {cs : List Char} {v : ℚ} (h : parseF32 cs = some v) :
    ∀ c ∈ cs, c.isWhitespace = false := by
  intro c hc
  rcases parseF32_chars h c hc with hd | hd | hd | hd
  · by_contra hw
    rw [Bool.not_eq_false] at hw
    rw [ws_not_digit hw] at hd
    cases hd
  · subst hd; decide
  · subst hd; decide
  · subst hd; decide

theorem parseF32_no_comma {cs : List Char} {v : ℚ} (h : parseF32 cs = some v) :
    cs.contains ',' = false := by
  by_contra hc
  rw [Bool.not_eq_false] at hc
  have hm : ',' ∈ cs := List.elem_iff.mp hc
  rcases parseF32_chars h ',' hm with hd | hd | hd | hd <;> simp_all

theorem splitOnCharGo_no_sep {sep : Char} {cs : List Char} (h : cs.contains sep = false) :
    ∀ cur, splitOnCharGo sep cs cur = [cur.reverse ++ cs] := by
  induction cs with
  | nil => intro cur; simp [splitOnCharGo]
  | cons c rest ih =>
    intro cur
    rw [List.contains_cons, Bool.or_eq_false_iff] at h
    have hc : ¬ c = sep := by
      intro he
      subst he
      simp at h
    unfold splitOnCharGo
    rw [if_neg hc, ih h.2]
    simp

theorem splitOnChar_no_sep {sep : Char} {cs : List Char} (h : cs.contains sep = false) :
    splitOnChar sep cs = [cs] := by
  unfold splitOnChar
  rw [splitOnCharGo_no_sep h]
  simp

theorem contains_of_splitOnChar_pair {sep : Char} {cs a b : List Char}
    (h : splitOnChar sep cs = [a, b]) : cs.contains sep = true := by
  by_contra hc
  rw [Bool.not_eq_true] at hc
  rw [splitOnChar_no_sep hc] at h
  simp at h

theorem validRangeB_contains {t : List Char} (h : validRangeB t = true) :
    t.contains '-' = true := by
  unfold validRangeB at h
  split at h
  · rename_i heq
    exact contains_of_splitOnChar_pair heq
  · cases h

theorem splitWsGo_no_ws {cs : List Char} (h : ∀ c ∈ cs, c.isWhitespace = false) :
    ∀ cur, splitWsGo cs cur = if cur = [] ∧ cs = [] then [] else [cur.reverse ++ cs] := by
  induction cs with
  | nil =>
    intro cur
    by_cases hcur : cur = [] <;> simp [splitWsGo, hcur]
  | cons c rest ih =>
    intro cur
    have hc : c.isWhitespace = false := h c (by simp)
    have hrest : ∀ x ∈ rest, x.isWhitespace = false := fun x hx => h x (by simp [hx])
    unfold splitWsGo
    rw [hc]
    simp only [Bool.false_eq_true, if_false]
    rw [ih hrest]
    simp

theorem splitWhitespaceChars_singleton {p : List Char} (hne : p ≠ [])
    (h : ∀ c ∈ p, c.isWhitespace = false) : splitWhitespaceChars p = [p] := by
  unfold splitWhitespaceChars
  rw [splitWsGo_no_ws h []]
  simp [hne]

theorem foldr_spacepart_eq_nil_iff (ts : List (List Char)) :
    ts.foldr (fun t acc => spacePartUnits t ++ acc) [] = [] ↔
      ∀ t ∈ ts, spacePartUnits t = [] := by
  induction ts with
  | nil => simp
  | cons t ts ih => simp [List.append_eq_nil, ih]

theorem spacePartUnits_eq_nil_iff (t : List Char) :
    spacePartUnits t = [] ↔ spacePred t = false := by
  unfold spacePartUnits spacePred
  cases hc : t.contains '-' with
  | false =>
    have hvr : validRangeB t = false := by
      by_contra hv
      rw [Bool.not_eq_false] at hv
      rw [validRangeB_contains hv] at hc
      cases hc
    rw [hvr]
    simp only [Bool.false_eq_true, if_false, Bool.false_or, Bool.not_false, Bool.true_and]
    cases hp : parseF32 t <;> simp
  | true =>
    simp only [if_true, Bool.not_true, Bool.false_and, Bool.or_false]
    unfold validRangeB
    cases hs : splitOnChar '-' t with
    | nil => simp
    | cons a rest =>
      cases rest with
      | nil => simp
      | cons b rest2 =>
        cases rest2 with
        | nil => cases hpa : parseF32 a <;> cases hpb : parseF32 b <;> simp [hpa, hpb]
        | cons d rest3 => simp

theorem partUnitsRange_isSome {p : List Char} :
    (partUnitsRange p).isSome = validRangeB p := by
  unfold partUnitsRange
  cases hc : p.contains '-' with
  | false =>
    have hvr : validRangeB p = false := by
      by_contra hv
      rw [Bool.not_eq_false] at hv
      rw [validRangeB_contains hv] at hc
      cases hc
    rw [hvr]
    simp
  | true =>
    simp only [if_true]
    unfold validRangeB
    cases hs : splitOnChar '-' p with
    | nil => simp
    | cons a rest =>
      cases rest with
      | nil => simp
      | cons b rest2 =>
        cases rest2 with
        | nil => cases hpa : parseF32 a <;> cases hpb : parseF32 b <;> simp [hpa, hpb]
        | cons d rest3 => simp

theorem partUnitsRest_eq_nil_iff (p : List Char) :
    partUnitsRest p = [] ↔
      ((parseF32 p).isSome || (splitWhitespaceChars p).any spacePred) = false := by
  unfold partUnitsRest
  cases hp : parseF32 p with
  | some v => simp
  | none =>
    simp only [Option.isSome_none, Bool.false_or]
    rw [foldr_spacepart_eq_nil_iff, List.any_eq_false]
    constructor <;> intro h t ht
    · simpa using (spacePartUnits_eq_nil_iff t).mp (h t ht)
    · exact (spacePartUnits_eq_nil_iff t).mpr (by simpa using h t ht)

theorem partUnits_eq_nil_iff (p0 : List Char) :
    partUnits p0 = [] ↔ partHasToken p0 = false := by
  simp only [partUnits, partHasToken]
  by_cases hp : trimChars p0 = []
  · rw [if_pos hp, hp]
    simp only [true_iff]
    decide
  · rw [if_neg hp]
    cases hr : partUnitsRange (trimChars p0) with
    | some u =>
      have hvr : validRangeB (trimChars p0) = true := by
        rw [← partUnitsRange_isSome, hr]
        rfl
      rw [hvr]
      simp
    | none =>
      have hvr : validRangeB (trimChars p0) = false := by
        rw [← partUnitsRange_isSome, hr]
        rfl
      rw [hvr]
      simp only [Bool.false_or]
      exact partUnitsRest_eq_nil_iff (trimChars p0)

theorem collectUnits_eq_nil_iff (ps : List (List Char)) :
    collectUnits ps = [] ↔ ∀ p ∈ ps, partUnits p = [] := by
  induction ps with
  | nil => simp [collectUnits]
  | cons p ps ih => simp [collectUnits, List.append_eq_nil, ih]

theorem collect_split_eq_nil_iff (s : List Char) :
    collectUnits (splitOnChar ',' s) = [] ↔ hasUnitToken s = false := by
  rw [collectUnits_eq_nil_iff]
  unfold hasUnitToken
  rw [List.any_eq_false]
  constructor <;> intro h p hp
  · simpa using (partUnits_eq_nil_iff p).mp (h p hp)
  · exact (partUnits_eq_nil_iff p).mpr (by simpa using h p hp)

theorem hasUnitToken_of_parseF32 {s : List Char} {v : ℚ}
    (hs : trimChars s = s) (h : parseF32 s = some v) : hasUnitToken s = true := by
  unfold hasUnitToken
  rw [splitOnChar_no_sep (parseF32_no_comma h)]
  simp only [List.any_cons, List.any_nil, Bool.or_false]
  simp only [partHasToken]
  rw [hs, h]
  simp

theorem hasUnitToken_of_validRange {s : List Char}
    (hs : trimChars s = s) (hnc : s.contains ',' = false) (hvr : validRangeB s = true) :
    hasUnitToken s = true := by
  unfold hasUnitToken
  rw [splitOnChar_no_sep hnc]
  simp only [List.any_cons, List.any_nil, Bool.or_false]
  simp only [partHasToken]
  rw [hs, hvr]
  simp

theorem topRange_props {s : List Char} {r : UnitType} (h : topRange s = some r) :
    s.contains ',' = false ∧ validRangeB s = true := by
  unfold topRange at h
  split at h
  · rename_i hguard
    rw [Bool.and_eq_true] at hguard
    have hnc : s.contains ',' = false := by
      have h2 := hguard.2
      cases hcc : s.contains ',' with
      | false => rfl
      | true => rw [hcc] at h2; cases h2
    refine ⟨hnc, ?_⟩
    unfold validRangeB
    split at h
    · split at h
      · rename_i mn mx hpa hpb
        rw [hpa, hpb]
        rfl
      · cases h
    · cases h
  · cases h

theorem unitType_fromStr_spec (t : List Char) (hne : ¬ t = []) (ht : trimChars t = t) :
    (UnitType.fromStr t = .error .noValidUnits ↔ hasUnitToken t = false)
  ∧ (∀ e, UnitType.fromStr t = .error e → e = .noValidUnits) := by
  simp only [UnitType.fromStr]
  rw [ht, if_neg hne]
  cases hp : parseF32 t with
  | some v =>
    have htok := hasUnitToken_of_parseF32 ht hp
    constructor
    · simp [htok]
    · intro e he
      simp at he
  | none =>
    simp only [hp]
    cases hr : topRange t with
    | some r =>
      obtain ⟨hnc, hvr⟩ := topRange_props hr
      have htok := hasUnitToken_of_validRange ht hnc hvr
      constructor
      · simp [htok]
      · intro e he
        simp at he
    | none =>
      simp only [hr]
      cases hcol : collectUnits (splitOnChar ',' t) with
      | nil =>
        have htok : hasUnitToken t = false := (collect_split_eq_nil_iff t).mp hcol
        constructor
        · simp [htok]
        · intro e he
          cases he
          rfl
      | cons u us =>
        have htok : ¬ hasUnitToken t = false := by
          intro hf
          have hcol2 := (collect_split_eq_nil_iff t).mpr hf
          rw [hcol] at hcol2
          cases hcol2
        cases us with
        | nil =>
          constructor
          · simp [htok]
          · intro e he
            simp at he
        | cons u2 us2 =>
          constructor
          · simp [htok]
          · intro e he
            simp at he

/-- C6 counterexample: the claim as stated is false — the input
`"x -5"` is non-empty after trimming, is not `"VAR"`, and contains the
whitespace token `"-5"` which parses as a number, yet `Units::from_str`
fails with `NoValidUnits` (the whitespace fallback only accepts a
hyphen-containing token as a range, never as a signed number). -/
theorem units_error_counterexample :
    trimChars "x -5".data ≠ []
  ∧ trimChars "x -5".data ≠ "VAR".data
  ∧ hasNumericToken (trimChars "x -5".data) = true
  ∧ Units.fromStr "x -5".data = .error .noValidUnits := by
  refine ⟨by decide, by decide, by decide, by decide⟩

/-- C6 amended: units parsing fails with `EmptyInput` exactly when the
trimmed input is empty; it fails with `NoValidUnits` exactly when the
trimmed input is non-empty, is not the literal `"VAR"`, and contains no
recognizable unit token — where a comma segment is recognizable as a
whole number or whole range, and a whitespace-fallback token is
recognizable as a range or as a hyphen-free number; it succeeds in
every other case, and these are the only two failure modes. -/
theorem units_error_modes (s : List Char) :
    (Units.fromStr s = .error .emptyInput ↔ trimChars s = [])
  ∧ (Units.fromStr s = .error .noValidUnits ↔
      (trimChars s ≠ [] ∧ trimChars s ≠ "VAR".data ∧ hasUnitToken (trimChars s) = false))
  ∧ (trimChars s ≠ [] →
      (trimChars s = "VAR".data ∨ hasUnitToken (trimChars s) = true) →
      ∃ u, Units.fromStr s = .ok u) := by
  by_cases h0 : trimChars s = []
  · have hU : Units.fromStr s = .error .emptyInput := by
      simp only [Units.fromStr]
      rw [if_pos h0]
    refine ⟨by simp [hU, h0], by simp [hU, h0], fun hne => absurd h0 hne⟩
  · by_cases h1 : trimChars s = "VAR".data
    · have hU : Units.fromStr s = .ok .var := by
        simp only [Units.fromStr]
        rw [if_neg h0, if_pos h1]
      refine ⟨by simp [hU, h0], by simp [hU, h1], fun _ _ => ⟨.var, hU⟩⟩
    · have hU : Units.fromStr s = (UnitType.fromStr (trimChars s)).map Units.value := by
        simp only [Units.fromStr]
        rw [if_neg h0, if_neg h1]
      have hspec := unitType_fromStr_spec (trimChars s) h0 (trimChars_idem s)
      refine ⟨?_, ?_, ?_⟩
      · rw [hU]
        cases hres : UnitType.fromStr (trimChars s) with
        | ok u => simp [Except.map, h0]
        | error e =>
          have he := hspec.2 e hres
          subst he
          simp [Except.map, h0]
      · rw [hU]
        cases hres : UnitType.fromStr (trimChars s) with
        | ok u =>
          have htok : ¬ hasUnitToken (trimChars s) = false := by
            intro hf
            have hcontra := hspec.1.mpr hf
            rw [hres] at hcontra
            cases hcontra
          simp [Except.map, h0, h1, htok]
        | error e =>
          have he := hspec.2 e hres
          subst he
          have htok := hspec.1.mp hres
          simp [Except.map, h0, h1, htok]
      · intro _ hor
        rw [hU]
        cases hres : UnitType.fromStr (trimChars s) with
        | ok u => exact ⟨.value u, rfl⟩
        | error e =>
          have he := hspec.2 e hres
          subst he
          have htok := hspec.1.mp hres
          rcases hor with hvar | htok2
          · exact absurd hvar h1
          · rw [htok] at htok2
            cases htok2

/-- Witness for C6's amended theorem: `" 9 "` trims non-empty with a
recognizable token, and parsing succeeds. -/
theorem units_error_modes_witness :
    trimChars " 9 ".data ≠ []
  ∧ hasUnitToken (trimChars " 9 ".data) = true
  ∧ ∃ u, Units.fromStr " 9 ".data = .ok u :=
  ⟨by decide, by decide,
    (units_error_modes " 9 ".data).2.2 (by decide) (Or.inr (by decide))⟩

end CoursesBackend
